import Mathlib

/-!
Shallow embedding of the MemeGenius canvas compositor
(`src/components/MemeCanvas.tsx`) and the sticker state kept by the
application shell (`src/App.tsx`).

Modelling conventions:
* JavaScript numbers are modelled as exact rationals (`ℚ`); the claims under
  study are stated "within rounding", so exact arithmetic is the faithful
  reading.
* JavaScript strings that only need identity (sticker ids, urls) are Lean
  `String`s; caption text, which is measured character by character, is
  modelled as `List Char` (a JS string is a sequence of code units).
* The 2D canvas is modelled as a surface `CanvasState` holding its pixel
  dimensions and the list of abstract draw commands issued since the last
  clear; `canvas.width := w` and `ctx.clearRect` both reset that list.
* Font metrics (`ctx.measureText`) are modelled by an arbitrary per-character
  advance-width function `charW : Char → ℚ`, with text width additive over
  characters.
* An `HTMLImageElement` is modelled by `HImage`; per the HTML standard an
  image whose data is not yet available reports `width = height = 0`, and
  `drawImage` with a not-fully-decoded image draws nothing and does not throw.
-/

namespace MemeGenius

/-- Sticker record, from `src/types.ts`. -/
structure Sticker where
  id : String
  url : String
  x : ℚ
  y : ℚ
  width : ℚ
  height : ℚ
  rotation : ℚ
deriving DecidableEq

/-- Model of an `HTMLImageElement`: its `src`, whether loading/decoding has
completed, and its natural dimensions once decoded. -/
structure HImage where
  src : String
  complete : Bool
  natW : ℚ
  natH : ℚ
deriving DecidableEq

/-- The `width` attribute the browser reports: 0 while the image data is not
yet available. -/
def HImage.widthAttr (img : HImage) : ℚ :=
  if img.complete then img.natW else 0

/-- The `height` attribute the browser reports: 0 while the image data is not
yet available. -/
def HImage.heightAttr (img : HImage) : ℚ :=
  if img.complete then img.natH else 0

/-- Mouse position in surface coordinates, from `getMousePos`
(`MemeCanvas.tsx` lines 178-189): client coordinates are translated by the
bounding rectangle's origin and scaled by the canvas-resolution /
displayed-size ratio in each axis. -/
def getMousePos (canvasW canvasH rectW rectH rectLeft rectTop clientX clientY : ℚ) :
    ℚ × ℚ :=
  ((clientX - rectLeft) * (canvasW / rectW), (clientY - rectTop) * (canvasH / rectH))

/-- Axis-aligned bounding-box containment test used by `handleMouseDown`
(`MemeCanvas.tsx` lines 197-202). -/
def inBox (pos : ℚ × ℚ) (s : Sticker) : Prop :=
  s.x - s.width / 2 ≤ pos.1 ∧ pos.1 ≤ s.x + s.width / 2 ∧
  s.y - s.height / 2 ≤ pos.2 ∧ pos.2 ≤ s.y + s.height / 2

instance (pos : ℚ × ℚ) (s : Sticker) : Decidable (inBox pos s) := by
  unfold inBox; infer_instance

/-- Pointer-down handler, from `handleMouseDown` (`MemeCanvas.tsx` lines
191-208).  The source iterates the sticker array downward from the last
index and returns at the first bounding-box hit, recording the hit sticker's
id and the pointer offset from its center; this recursion checks the tail
(higher indices) before the head, which is the same visit order.  `none`
means no drag starts. -/
def handleMouseDown (pos : ℚ × ℚ) : List Sticker → Option (String × ℚ × ℚ)
  | [] => none
  | s :: rest =>
    match handleMouseDown pos rest with
    | some r => some r
    | none =>
      if inBox pos s then some (s.id, pos.1 - s.x, pos.2 - s.y) else none

/-- Pointer-move handler, from `handleMouseMove` (`MemeCanvas.tsx` lines
210-226).  When no drag is active (`draggingId = none`) the handler returns
without emitting anything; otherwise it emits via `onStickersChange` the
sticker list in which the sticker whose id equals the drag target gets
center `pos - dragOffset` and every other sticker is returned unchanged. -/
def handleMouseMove (draggingId : Option String) (dragOffset : ℚ × ℚ)
    (stickers : List Sticker) (pos : ℚ × ℚ) : Option (List Sticker) :=
  match draggingId with
  | none => none
  | some did =>
    some (stickers.map fun s =>
      if s.id = did then
        { s with x := pos.1 - dragOffset.1, y := pos.2 - dragOffset.2 }
      else s)

/-- Folding a sequence of pointer-move positions through `handleMouseMove`,
feeding each emitted list back as the next sticker list (the owner stores the
emitted list via `setStickers`, `src/App.tsx` line 349).  When nothing is
emitted the list is kept. -/
def applyMoves (draggingId : Option String) (dragOffset : ℚ × ℚ)
    (stickers : List Sticker) (ps : List (ℚ × ℚ)) : List Sticker :=
  ps.foldl (fun st p => (handleMouseMove draggingId dragOffset st p).getD st) stickers

/-! Caption text pipeline (`drawText`, `MemeCanvas.tsx` lines 124-170). -/

/-- Additive text measurement: `ctx.measureText(s).width` is modelled as the
sum of the per-character advance widths of the configured font. -/
def measureText (charW : Char → ℚ) (s : List Char) : ℚ :=
  (s.map charW).sum

/-- JavaScript `text.toUpperCase()`. -/
def upperJs (s : List Char) : List Char :=
  s.map Char.toUpper

/-- JavaScript `text.split(' ')`: split at every single space, keeping empty
fragments, never returning an empty list. -/
def splitSpace : List Char → List (List Char)
  | [] => [[]]
  | c :: rest =>
    if c = ' ' then [] :: splitSpace rest
    else
      match splitSpace rest with
      | [] => [[c]]
      | w :: ws => (c :: w) :: ws

/-- Greedy line-break loop of `drawText` (`MemeCanvas.tsx` lines 144-155):
`n` is the loop index, `line` the line under construction, `lines` the lines
already pushed; each accepted word carries a trailing space, a line is pushed
when the test line overflows and at least one word was already consumed, and
the final `line` is always pushed at the end. -/
def wrapLoop (charW : Char → ℚ) (maxW : ℚ) :
    List (List Char) → ℕ → List Char → List (List Char) → List (List Char)
  | [], _, line, lines => lines ++ [line]
  | w :: rest, n, line, lines =>
    let testLine := line ++ w ++ [' ']
    if measureText charW testLine > maxW ∧ 0 < n then
      wrapLoop charW maxW rest (n + 1) (w ++ [' ']) (lines ++ [line])
    else
      wrapLoop charW maxW rest (n + 1) testLine lines

/-- Word-wrapped lines for a word list, starting the loop with index 0, empty
current line and no pushed lines. -/
def wrapText (charW : Char → ℚ) (maxW : ℚ) (words : List (List Char)) :
    List (List Char) :=
  wrapLoop charW maxW words 0 [] []

/-! Abstract draw commands and the surface. -/

/-- One abstract drawing command issued to the 2D context.  Sticker and
outline commands record the center/size/rotation the context transform
stack establishes; text commands record the line and its anchor point. -/
inductive DrawOp where
  | bgDraw (src : String) (w h : ℚ)
  | stickerDraw (id : String) (url : String) (x y w h rot : ℚ)
  | outlineDraw (x y w h : ℚ)
  | textStroke (line : List Char) (x y : ℚ)
  | textFill (line : List Char) (x y : ℚ)
deriving DecidableEq

/-- The sticker identifier a draw command paints, when it paints one. -/
def DrawOp.stickerId : DrawOp → Option String
  | .stickerDraw i _ _ _ _ _ _ => some i
  | _ => none

/-- The raster surface: pixel dimensions plus the draw commands issued since
the last clear (resizing the canvas and `clearRect` both clear it). -/
structure CanvasState where
  width : ℚ
  height : ℚ
  ops : List DrawOp
deriving DecidableEq

/-! Sticker image cache (`stickerImagesRef`, a JS `Map` keyed by sticker id,
`MemeCanvas.tsx` lines 24 and 41-69). -/

/-- The cache is an association list in insertion order, like a JS `Map`. -/
abbrev Cache := List (String × HImage)

/-- JS `Map.prototype.get`. -/
def cacheGet (c : Cache) (k : String) : Option HImage :=
  (List.find? (fun kv => kv.1 == k) c).map (·.2)

/-- JS `Map.prototype.has`. -/
def cacheHasKey (c : Cache) (k : String) : Bool :=
  (cacheGet c k).isSome

/-- JS `Map.prototype.set`: replace in place when the key exists, otherwise
append. -/
def cacheSet (c : Cache) (k : String) (v : HImage) : Cache :=
  if cacheHasKey c k then
    List.map (fun kv => if kv.1 == k then (k, v) else kv) c
  else
    c ++ [(k, v)]

/-- A freshly constructed `new Image()` whose `src` was just assigned: not
yet complete. -/
def newImage (url : String) : HImage :=
  ⟨url, false, 0, 0⟩

/-- The sticker-cache effect (`MemeCanvas.tsx` lines 41-69): for each sticker
whose id is absent from the cache, insert a fresh loading image for its url;
then delete every cache entry whose key is not among the current sticker
ids. -/
def updateStickerCache (stickers : List Sticker) (c : Cache) : Cache :=
  let c1 := stickers.foldl
    (fun acc s => if cacheHasKey acc s.id then acc else cacheSet acc s.id (newImage s.url))
    c
  List.filter (fun kv => (stickers.map (·.id)).contains kv.1) c1

/-! The render routine (`drawCanvas`, `MemeCanvas.tsx` lines 71-171). -/

/-- Scale factor `Math.min(1, MAX_WIDTH / img.width)` with `MAX_WIDTH = 800`
(`MemeCanvas.tsx` lines 89-90).  In IEEE arithmetic `800 / 0 = ∞` and
`min(1, ∞) = 1`, which the zero test encodes. -/
def imgScale (w : ℚ) : ℚ :=
  if w = 0 then 1 else min 1 (800 / w)

/-- Surface width `img.width * scale` (`MemeCanvas.tsx` line 95). -/
def surfaceW (bg : HImage) : ℚ :=
  bg.widthAttr * imgScale bg.widthAttr

/-- Surface height `img.height * scale` (`MemeCanvas.tsx` line 96). -/
def surfaceH (bg : HImage) : ℚ :=
  bg.heightAttr * imgScale bg.widthAttr

/-- Background command (`ctx.drawImage(img, 0, 0, w, h)`, line 102): a
not-fully-decoded image is silently not drawn, per the HTML standard. -/
def bgOps (bg : HImage) : List DrawOp :=
  if bg.complete then [DrawOp.bgDraw bg.src (surfaceW bg) (surfaceH bg)] else []

/-- Draw commands one sticker contributes (`MemeCanvas.tsx` lines 105-122):
nothing unless its cached image exists and is complete; an extra outline
rectangle when it is the active drag target. -/
def stickerOpsFor (cache : Cache) (draggingId : Option String) (s : Sticker) :
    List DrawOp :=
  match cacheGet cache s.id with
  | some img =>
    if img.complete then
      DrawOp.stickerDraw s.id s.url s.x s.y s.width s.height s.rotation ::
        (if draggingId = some s.id then
          [DrawOp.outlineDraw s.x s.y s.width s.height]
        else [])
    else []
  | none => []

/-- Draw commands of the whole sticker loop, in list order. -/
def stickerOps (cache : Cache) (draggingId : Option String)
    (stickers : List Sticker) : List DrawOp :=
  (stickers.map (stickerOpsFor cache draggingId)).flatten

/-- Draw commands of one caption (`drawText`, `MemeCanvas.tsx` lines
133-166): empty text is skipped; otherwise the uppercased text is split on
spaces, greedily wrapped to 95% of the surface width, and each line is
stroked then filled at the horizontal center; a bottom caption stacks its
lines upward so the last line sits on the anchor. -/
def drawTextOps (charW : Char → ℚ) (surfW : ℚ) (text : List Char) (y : ℚ)
    (isBottom : Bool) : List DrawOp :=
  if text = [] then []
  else
    let x := surfW / 2
    let fontSize : ℚ := ((⌊surfW * (1 / 10)⌋ : ℤ) : ℚ)
    let lineHeight := fontSize * (6 / 5)
    let maxW := surfW * (19 / 20)
    let lines := wrapText charW maxW (splitSpace (upperJs text))
    let y0 := if isBottom then y - ((lines.length : ℚ) - 1) * lineHeight else y
    (lines.enum.map fun il =>
      [DrawOp.textStroke il.2 x (y0 + (il.1 : ℚ) * lineHeight),
       DrawOp.textFill il.2 x (y0 + (il.1 : ℚ) * lineHeight)]).flatten

/-- Inputs of one render pass: the background image the component constructs
from `imageSrc`, the sticker props, the current cache, the two captions, the
drag state, and the font metric of the configured caption font. -/
structure CanvasInput where
  bg : HImage
  stickers : List Sticker
  cache : Cache
  topText : List Char
  bottomText : List Char
  draggingId : Option String
  charW : Char → ℚ

/-- All draw commands of one render pass, in issue order: background, then
stickers back-to-front, then top caption at 5% height, then bottom caption at
95% height (`MemeCanvas.tsx` lines 101-170). -/
def renderOps (inp : CanvasInput) : List DrawOp :=
  bgOps inp.bg ++ stickerOps inp.cache inp.draggingId inp.stickers ++
    drawTextOps inp.charW (surfaceW inp.bg) inp.topText (surfaceH inp.bg * (1 / 20)) false ++
    drawTextOps inp.charW (surfaceW inp.bg) inp.bottomText (surfaceH inp.bg * (19 / 20)) true

/-- One render pass (`drawCanvas`, `MemeCanvas.tsx` lines 71-171): if the
canvas dimensions differ from the target dimensions they are reassigned
(which clears the surface), otherwise `clearRect` clears it; then all
commands of this pass are issued. -/
def drawCanvas (inp : CanvasInput) (st : CanvasState) : CanvasState :=
  let w := surfaceW inp.bg
  let h := surfaceH inp.bg
  if ¬(st.width = w ∧ st.height = h) then
    { width := w, height := h, ops := renderOps inp }
  else
    { width := st.width, height := st.height, ops := renderOps inp }

/-- Whether `drawCanvas` registers itself as the background image's `onload`
callback, deferring a redraw until the load completes (`MemeCanvas.tsx`
lines 84-86). -/
def schedulesRedraw (bg : HImage) : Bool :=
  !bg.complete

/-! Sticker state transitions of the application shell (`src/App.tsx`). -/

/-- One sticker-state event: completion of `handleGenerateSticker` at clock
value `now` with the generated asset url, a `removeSticker` click, or one
drag update emitted by the canvas. -/
inductive AppOp where
  | add (now : ℕ) (url : String)
  | remove (id : String)
  | drag (did : String) (off : ℚ × ℚ) (pos : ℚ × ℚ)

/-- The sticker `handleGenerateSticker` appends (`src/App.tsx` lines
203-211): id `Date.now().toString()`, default geometry (150, 150, 100, 100),
rotation 0. -/
def freshSticker (now : ℕ) (url : String) : Sticker :=
  ⟨Nat.repr now, url, 150, 150, 100, 100, 0⟩

/-- Sticker-list transition for one event: `add` appends (`setStickers(prev
=> [...prev, newSticker])`), `remove` filters by id (`src/App.tsx` lines
228-230), `drag` stores the list `handleMouseMove` emits. -/
def stepStickers (st : List Sticker) : AppOp → List Sticker
  | .add now url => st ++ [freshSticker now url]
  | .remove i => List.filter (fun s => !(s.id == i)) st
  | .drag did off pos => (handleMouseMove (some did) off st pos).getD st

/-- Sticker list reached from the empty initial state by a trace of events. -/
def runApp (ops : List AppOp) : List Sticker :=
  ops.foldl stepStickers []

/-- Clock values of the `add` events of a trace, in order. -/
def addTimes : List AppOp → List ℕ
  | [] => []
  | .add now _ :: rest => now :: addTimes rest
  | _ :: rest => addTimes rest

/-- Concatenation of a word list in which every word carries the trailing
space the wrap loop appends; used to reason about runs of the loop that
never push a line. -/
def flatJoin (ws : List (List Char)) : List Char :=
  (ws.map (· ++ [' '])).flatten

/-- A concrete font metric: every character 8 units wide. -/
def charW0 : Char → ℚ := fun _ => 8

/-- A concrete caption: two words, "AA" and "A". -/
def textC4 : List Char := ['A', 'A', ' ', 'A']

/-- Numeric value of a decimal digit character. -/
def digitVal (c : Char) : ℕ :=
  c.toNat - 48

/-- Decimal digit characters of a natural number, most significant first;
fuel-free counterpart of the core `Nat.toDigitsCore` recursion. -/
def natDigits (n : ℕ) : List Char :=
  if h : n / 10 = 0 then [Nat.digitChar (n % 10)]
  else natDigits (n / 10) ++ [Nat.digitChar (n % 10)]
termination_by n
decreasing_by omega

/-- Value of a most-significant-first decimal digit string. -/
def charsVal (l : List Char) : ℕ :=
  l.foldl (fun a c => 10 * a + digitVal c) 0

/-! Helper lemmas. -/

/-- A render pass always produces the surface determined by the inputs alone:
both the resize branch and the `clearRect` branch end with the target
dimensions and exactly this pass's commands. -/
theorem drawCanvas_eq (inp : CanvasInput) (st : CanvasState) :
    drawCanvas inp st =
      ⟨surfaceW inp.bg, surfaceH inp.bg, renderOps inp⟩ := by
  unfold drawCanvas
  by_cases h : st.width = surfaceW inp.bg ∧ st.height = surfaceH inp.bg
  · simp [h, h.1, h.2]
  · simp [h]

/-! Claim C1: surface dimensions. -/

/-- C1: for a decoded background of natural width `w > 0` and height `h`, the
surface width is `min w 800` and the height is scaled by the same factor
`min 1 (800 / w)`, so the width never exceeds 800, the image is never scaled
up (factor at most 1), and the aspect ratio is preserved exactly
(`w * surfaceH = h * surfaceW`). -/
theorem surface_dims_c1 (w h : ℚ) (src : String) (hw : 0 < w) :
    surfaceW ⟨src, true, w, h⟩ = min w 800 ∧
    surfaceH ⟨src, true, w, h⟩ = h * min 1 (800 / w) ∧
    imgScale w = min 1 (800 / w) ∧
    min 1 (800 / w) ≤ 1 ∧
    surfaceW ⟨src, true, w, h⟩ ≤ 800 ∧
    w * surfaceH ⟨src, true, w, h⟩ = h * surfaceW ⟨src, true, w, h⟩ := by
  have hw0 : w ≠ 0 := ne_of_gt hw
  have hscale : imgScale w = min 1 (800 / w) := by
    simp [imgScale, hw0]
  have hW : surfaceW ⟨src, true, w, h⟩ = w * min 1 (800 / w) := by
    simp [surfaceW, HImage.widthAttr, hscale]
  have hH : surfaceH ⟨src, true, w, h⟩ = h * min 1 (800 / w) := by
    simp [surfaceH, HImage.heightAttr, HImage.widthAttr, hscale]
  have hmin : w * min 1 (800 / w) = min w 800 := by
    rw [mul_min_of_nonneg _ _ (le_of_lt hw), mul_one,
      mul_div_cancel₀ (800 : ℚ) hw0]
  refine ⟨by rw [hW, hmin], hH, hscale, min_le_left _ _, ?_, ?_⟩
  · rw [hW, hmin]; exact min_le_right _ _
  · rw [hW, hH]; ring

/-- Witness for C1 at the spec's example: a 1600×900 background yields an
800×450 surface. -/
theorem surface_dims_c1_witness :
    (0 : ℚ) < 1600 ∧
    surfaceW ⟨"bg", true, 1600, 900⟩ = min 1600 800 ∧
    surfaceH ⟨"bg", true, 1600, 900⟩ = 900 * min 1 (800 / 1600) ∧
    surfaceW ⟨"bg", true, 1600, 900⟩ = 800 ∧
    surfaceH ⟨"bg", true, 1600, 900⟩ = 450 := by
  have h := surface_dims_c1 1600 900 ("bg") (by norm_num)
  exact ⟨by norm_num, h.1, h.2.1, by rw [h.1]; norm_num, by rw [h.2.1]; norm_num⟩

/-! Claim C5: rendering is idempotent. -/

/-- C5: with fixed inputs and no active drag target, rendering twice in
succession produces the same surface (dimensions and issued commands) as
rendering once: the pass clears the canvas either by resizing it or via
`clearRect`, so the output never depends on the previous surface. -/
theorem render_idempotent_c5 (inp : CanvasInput) (st : CanvasState)
    (_hdrag : inp.draggingId = none) :
    drawCanvas inp (drawCanvas inp st) = drawCanvas inp st := by
  rw [drawCanvas_eq, drawCanvas_eq]

/-- Witness for C5 at a concrete input with an empty drag state. -/
theorem render_idempotent_c5_witness :
    ({ bg := ⟨"i", true, 4, 4⟩, stickers := [], cache := [], topText := [],
       bottomText := [], draggingId := none,
       charW := fun _ => 1 } : CanvasInput).draggingId = none ∧
    drawCanvas
        { bg := ⟨"i", true, 4, 4⟩, stickers := [], cache := [], topText := [],
          bottomText := [], draggingId := none, charW := fun _ => 1 }
        (drawCanvas
          { bg := ⟨"i", true, 4, 4⟩, stickers := [], cache := [], topText := [],
            bottomText := [], draggingId := none, charW := fun _ => 1 }
          ⟨0, 0, []⟩) =
      drawCanvas
        { bg := ⟨"i", true, 4, 4⟩, stickers := [], cache := [], topText := [],
          bottomText := [], draggingId := none, charW := fun _ => 1 }
        ⟨0, 0, []⟩ :=
  ⟨rfl, render_idempotent_c5 _ ⟨0, 0, []⟩ rfl⟩

/-! Claim C8: missing background defers the render. -/

/-- C8: when the background image has not finished loading, the pass leaves a
0×0 surface — the browser reports width and height 0 for an image without
data, so the canvas is resized to zero area and no pixel can be produced —
and the routine installs itself as the image's `onload` handler, deferring
the real render until the load completes; the embedding of the pass is a
total function, so no error is raised. -/
theorem deferred_render_c8 (inp : CanvasInput) (st : CanvasState)
    (hload : inp.bg.complete = false) :
    (drawCanvas inp st).width = 0 ∧ (drawCanvas inp st).height = 0 ∧
    schedulesRedraw inp.bg = true := by
  have hW : surfaceW inp.bg = 0 := by
    simp [surfaceW, HImage.widthAttr, hload]
  have hH : surfaceH inp.bg = 0 := by
    simp [surfaceH, HImage.heightAttr, hload]
  rw [drawCanvas_eq]
  exact ⟨hW, hH, by simp [schedulesRedraw, hload]⟩

/-- Witness for C8 at a concrete not-yet-loaded background. -/
theorem deferred_render_c8_witness :
    (⟨"pending", false, 0, 0⟩ : HImage).complete = false ∧
    (drawCanvas
        { bg := ⟨"pending", false, 0, 0⟩, stickers := [], cache := [],
          topText := [], bottomText := [], draggingId := none,
          charW := fun _ => 1 }
        ⟨7, 7, []⟩).width = 0 ∧
    (drawCanvas
        { bg := ⟨"pending", false, 0, 0⟩, stickers := [], cache := [],
          topText := [], bottomText := [], draggingId := none,
          charW := fun _ => 1 }
        ⟨7, 7, []⟩).height = 0 ∧
    schedulesRedraw ⟨"pending", false, 0, 0⟩ = true := by
  have h := deferred_render_c8
    { bg := ⟨"pending", false, 0, 0⟩, stickers := [], cache := [],
      topText := [], bottomText := [], draggingId := none,
      charW := fun _ => 1 } ⟨7, 7, []⟩ rfl
  exact ⟨rfl, h.1, h.2.1, h.2.2⟩

/-! Claim C2: pointer-down hit-testing. -/

/-- When no sticker's box contains the pointer, the reverse scan finds
nothing. -/
theorem handleMouseDown_none (pos : ℚ × ℚ) (l : List Sticker)
    (h : ∀ s ∈ l, ¬ inBox pos s) : handleMouseDown pos l = none := by
  induction l with
  | nil => rfl
  | cons a t ih =>
    have ht := ih fun s hs => h s (List.mem_cons_of_mem _ hs)
    simp only [handleMouseDown, ht]
    simp [h a (List.mem_cons_self _ _)]

/-- When the pointer is inside sticker `s`'s box and inside no box of a
sticker drawn after `s` (the suffix `l₂`), the scan returns `s` with the
pointer offset from its center. -/
theorem handleMouseDown_hit (pos : ℚ × ℚ) (l₁ : List Sticker) (s : Sticker)
    (l₂ : List Sticker) (hs : inBox pos s) (hafter : ∀ t ∈ l₂, ¬ inBox pos t) :
    handleMouseDown pos (l₁ ++ s :: l₂) =
      some (s.id, pos.1 - s.x, pos.2 - s.y) := by
  induction l₁ with
  | nil =>
    simp only [List.nil_append, handleMouseDown,
      handleMouseDown_none pos l₂ hafter]
    simp [hs]
  | cons a t ih =>
    simp only [List.cons_append, handleMouseDown, List.append_eq, ih]

/-- C2: pointer-down hit-tests stickers in reverse list order with
axis-aligned bounding-box containment (rotation ignored): if the list splits
as `l₁ ++ s :: l₂` with the pointer inside `s`'s box but in no box of the
stickers drawn above it (`l₂`), the drag target is `s` with recorded offset
`pos − center(s)`; and when no sticker's box contains the pointer, no drag
starts. -/
theorem hit_test_c2 (stickers : List Sticker) (pos : ℚ × ℚ) :
    ((∀ s ∈ stickers, ¬ inBox pos s) → handleMouseDown pos stickers = none) ∧
    (∀ l₁ s l₂, stickers = l₁ ++ s :: l₂ → inBox pos s →
      (∀ t ∈ l₂, ¬ inBox pos t) →
      handleMouseDown pos stickers =
        some (s.id, pos.1 - s.x, pos.2 - s.y)) := by
  refine ⟨handleMouseDown_none pos stickers, ?_⟩
  rintro l₁ s l₂ rfl hs hafter
  exact handleMouseDown_hit pos l₁ s l₂ hs hafter

/-- Witness for C2: with two overlapping stickers, a pointer-down at
(150, 150) selects the topmost (later-drawn) one with the offset from its
center, and a pointer-down far away starts no drag. -/
theorem hit_test_c2_witness :
    handleMouseDown (150, 150)
        [⟨"a", "u", 150, 150, 100, 100, 0⟩, ⟨"b", "u", 160, 160, 100, 100, 0⟩] =
      some ("b", 150 - 160, 150 - 160) ∧
    handleMouseDown (1000, 1000)
        [⟨"a", "u", 150, 150, 100, 100, 0⟩, ⟨"b", "u", 160, 160, 100, 100, 0⟩] =
      none := by
  constructor
  · exact (hit_test_c2
        [⟨"a", "u", 150, 150, 100, 100, 0⟩, ⟨"b", "u", 160, 160, 100, 100, 0⟩]
        (150, 150)).2
      [⟨"a", "u", 150, 150, 100, 100, 0⟩] ⟨"b", "u", 160, 160, 100, 100, 0⟩ []
      rfl (by norm_num [inBox]) (by simp)
  · exact (hit_test_c2
        [⟨"a", "u", 150, 150, 100, 100, 0⟩, ⟨"b", "u", 160, 160, 100, 100, 0⟩]
        (1000, 1000)).1
      (by intro s hs; fin_cases hs <;> norm_num [inBox])

/-! Claim C10: pointer-move frame effect. -/

/-- C10: a pointer-move with no active drag target emits nothing (and so the
owner's sticker list is untouched); during an active drag every emitted list
corresponds element-by-element, in order and length, to the input list, with
id, url, width, height and rotation preserved everywhere, and every sticker
other than the drag target returned unchanged. -/
theorem move_frame_c10 (off pos : ℚ × ℚ) (stickers : List Sticker) :
    handleMouseMove none off stickers pos = none ∧
    ∀ did out, handleMouseMove (some did) off stickers pos = some out →
      List.Forall₂
        (fun a b => b.id = a.id ∧ b.url = a.url ∧ b.width = a.width ∧
          b.height = a.height ∧ b.rotation = a.rotation ∧ (¬ a.id = did → b = a))
        stickers out := by
  refine ⟨rfl, ?_⟩
  intro did out hout
  have : out = stickers.map fun s =>
      if s.id = did then
        { s with x := pos.1 - off.1, y := pos.2 - off.2 }
      else s := by
    simpa [handleMouseMove] using hout.symm
  subst this
  rw [List.forall₂_map_right_iff, List.forall₂_same]
  intro a _
  by_cases h : a.id = did <;> simp [h]

/-- Witness for C10: a concrete drag update preserves everything but the
dragged sticker's center. -/
theorem move_frame_c10_witness :
    List.Forall₂
      (fun (a b : Sticker) => b.id = a.id ∧ b.url = a.url ∧ b.width = a.width ∧
        b.height = a.height ∧ b.rotation = a.rotation ∧
        (¬ a.id = ("a" : String) → b = a))
      [⟨"a", "u", 150, 150, 100, 100, 0⟩, ⟨"b", "u", 300, 300, 50, 50, 0⟩]
      [⟨"a", "u", 199, 198, 100, 100, 0⟩, ⟨"b", "u", 300, 300, 50, 50, 0⟩] := by
  refine (move_frame_c10 (1, 2) (200, 200)
    [⟨"a", "u", 150, 150, 100, 100, 0⟩, ⟨"b", "u", 300, 300, 50, 50, 0⟩]).2
    ("a") _ ?_
  norm_num [handleMouseMove]
  decide

/-! Claim C3: drag tracking without drift. -/

/-- A list with a known last element splits off that element. -/
theorem getLast?_split {α : Type} (l : List α) (a : α)
    (h : l.getLast? = some a) : ∃ t, l = t ++ [a] := by
  induction l with
  | nil => cases h
  | cons x t ih =>
    cases t with
    | nil =>
      refine ⟨[], ?_⟩
      simp only [List.getLast?_singleton, Option.some.injEq] at h
      rw [h]; rfl
    | cons y u =>
      obtain ⟨t', ht'⟩ := ih (by simpa [List.getLast?_cons_cons] using h)
      exact ⟨x :: t', by rw [List.cons_append, ← ht']⟩

/-- C3: across any non-empty sequence of pointer-move events received during
an active drag (each emitted list stored by the owner and fed to the next
event), every sticker carrying the drag-target id ends centered at exactly
the last pointer position minus the recorded offset — there is no
accumulated drift — where each pointer position is first mapped from client
coordinates to surface coordinates by `getMousePos`. -/
theorem drag_tracking_c3 (did : String) (off : ℚ × ℚ)
    (stickers : List Sticker) (cw ch rw rh rl rt : ℚ)
    (events : List (ℚ × ℚ)) (e : ℚ × ℚ)
    (hlast : events.getLast? = some e) :
    ∀ s ∈ applyMoves (some did) off stickers
        (events.map fun ev => getMousePos cw ch rw rh rl rt ev.1 ev.2),
      s.id = did →
        s.x = (getMousePos cw ch rw rh rl rt e.1 e.2).1 - off.1 ∧
        s.y = (getMousePos cw ch rw rh rl rt e.1 e.2).2 - off.2 := by
  obtain ⟨t, rfl⟩ := getLast?_split events e hlast
  intro s hs hid
  rw [List.map_append, List.map_singleton] at hs
  unfold applyMoves at hs
  rw [List.foldl_append] at hs
  simp only [List.foldl_cons, List.foldl_nil, handleMouseMove, Option.getD_some] at hs
  obtain ⟨a, _, rfl⟩ := List.mem_map.mp hs
  by_cases h : a.id = did
  · simp [h]
  · simp only [if_neg h] at hid ⊢
    exact absurd hid h

/-- Witness for C3: one sticker dragged through two move events lands at the
last mapped pointer position minus the offset. -/
theorem drag_tracking_c3_witness :
    ([(3, 4), (5, 6)] : List (ℚ × ℚ)).getLast? = some (5, 6) ∧
    ((⟨"a", "u", 9, 10, 100, 100, 0⟩ : Sticker).x =
        (getMousePos 2 2 1 1 0 0 5 6).1 - 1 ∧
      (⟨"a", "u", 9, 10, 100, 100, 0⟩ : Sticker).y =
        (getMousePos 2 2 1 1 0 0 5 6).2 - 2) := by
  refine ⟨rfl, drag_tracking_c3 ("a") (1, 2)
    [⟨"a", "u", 150, 150, 100, 100, 0⟩] 2 2 1 1 0 0
    [(3, 4), (5, 6)] (5, 6) rfl ⟨"a", "u", 9, 10, 100, 100, 0⟩ ?_ rfl⟩
  norm_num [applyMoves, handleMouseMove, getMousePos]

/-! Word-wrap lemmas (claim C4). -/

/-- Measurement is additive over concatenation. -/
theorem measureText_append (charW : Char → ℚ) (a b : List Char) :
    measureText charW (a ++ b) = measureText charW a + measureText charW b := by
  simp [measureText]

/-- JS `split(' ')` never returns an empty array. -/
theorem splitSpace_ne_nil (s : List Char) : splitSpace s ≠ [] := by
  cases s with
  | nil => simp [splitSpace]
  | cons c rest =>
    rw [splitSpace]
    by_cases hc : c = ' '
    · simp [hc]
    · rw [if_neg hc]
      cases hsp : splitSpace rest <;> simp

/-- Joining the split words, each with its trailing space, recovers the
original text followed by one extra space. -/
theorem flatJoin_splitSpace (s : List Char) :
    flatJoin (splitSpace s) = s ++ [' '] := by
  induction s with
  | nil => rfl
  | cons c rest ih =>
    rw [splitSpace]
    by_cases hc : c = ' '
    · rw [if_pos hc]
      simp only [flatJoin, List.map_cons, List.flatten_cons] at ih ⊢
      rw [ih, hc]
      rfl
    · rw [if_neg hc]
      cases hsp : splitSpace rest with
      | nil => exact absurd hsp (splitSpace_ne_nil rest)
      | cons w ws =>
        simp only [flatJoin, List.map_cons, List.flatten_cons] at ih ⊢
        rw [hsp] at ih
        simp only [List.map_cons, List.flatten_cons] at ih
        simp [← ih]

/-- The wrap loop returns at least one more line than were already pushed. -/
theorem wrapLoop_length (charW : Char → ℚ) (maxW : ℚ) :
    ∀ ws n (line : List Char) (lines : List (List Char)),
      lines.length + 1 ≤ (wrapLoop charW maxW ws n line lines).length := by
  intro ws
  induction ws with
  | nil => intro n line lines; simp [wrapLoop]
  | cons w rest ih =>
    intro n line lines
    rw [wrapLoop]
    by_cases hc : measureText charW (line ++ w ++ [' ']) > maxW ∧ 0 < n
    · rw [if_pos hc]
      have := ih (n + 1) (w ++ [' ']) (lines ++ [line])
      simp only [List.length_append, List.length_singleton] at this
      omega
    · rw [if_neg hc]
      exact ih (n + 1) (line ++ w ++ [' ']) lines

/-- Every line the wrap loop returns fits in `maxW`, provided every pending
word together with its trailing space fits, every already-pushed line fits,
and the line under construction fits (or the loop has not consumed a word
yet, in which case the line is empty and a word is pending). -/
theorem wrapLoop_le (charW : Char → ℚ) (maxW : ℚ) :
    ∀ ws n (line : List Char) (lines : List (List Char)),
      (∀ w ∈ ws, measureText charW (w ++ [' ']) ≤ maxW) →
      (∀ l ∈ lines, measureText charW l ≤ maxW) →
      ((0 < n ∧ measureText charW line ≤ maxW) ∨ (n = 0 ∧ line = [] ∧ ws ≠ [])) →
      ∀ l ∈ wrapLoop charW maxW ws n line lines, measureText charW l ≤ maxW := by
  intro ws
  induction ws with
  | nil =>
    intro n line lines _ hlines hline l hl
    rw [wrapLoop] at hl
    rcases List.mem_append.mp hl with h | h
    · exact hlines l h
    · rcases hline with ⟨_, hle⟩ | ⟨_, _, hne⟩
      · rwa [List.mem_singleton.mp h]
      · exact absurd rfl hne
  | cons w rest ih =>
    intro n line lines hws hlines hline
    have hw := hws w (List.mem_cons_self _ _)
    have hrest : ∀ u ∈ rest, measureText charW (u ++ [' ']) ≤ maxW :=
      fun u hu => hws u (List.mem_cons_of_mem _ hu)
    rw [wrapLoop]
    by_cases hc : measureText charW (line ++ w ++ [' ']) > maxW ∧ 0 < n
    · rw [if_pos hc]
      have hlinele : measureText charW line ≤ maxW := by
        rcases hline with ⟨_, hle⟩ | ⟨hn0, _, _⟩
        · exact hle
        · exact absurd hc.2 (by omega)
      refine ih (n + 1) (w ++ [' ']) (lines ++ [line]) hrest ?_ (Or.inl ⟨n.succ_pos, hw⟩)
      intro l hl
      rcases List.mem_append.mp hl with h | h
      · exact hlines l h
      · rwa [List.mem_singleton.mp h]
    · rw [if_neg hc]
      refine ih (n + 1) (line ++ w ++ [' ']) lines hrest hlines (Or.inl ⟨n.succ_pos, ?_⟩)
      rcases hline with ⟨hn, _⟩ | ⟨_, hle, _⟩
      · rcases not_and_or.mp hc with h | h
        · exact not_lt.mp h
        · exact absurd hn h
      · rw [hle, List.nil_append]
        exact hw

/-- If a run of the wrap loop pushes no further line (its output is exactly
one line longer than the input), then either the whole remaining text with
its trailing spaces was measured within `maxW` on its last acceptance, or the
run consumed the one and only word unconditionally (index 0). -/
theorem wrapLoop_single (charW : Char → ℚ) (maxW : ℚ) :
    ∀ ws n (line : List Char) (lines : List (List Char)), ws ≠ [] →
      (wrapLoop charW maxW ws n line lines).length = lines.length + 1 →
      measureText charW (line ++ flatJoin ws) ≤ maxW ∨ (n = 0 ∧ ws.length = 1) := by
  intro ws
  induction ws with
  | nil => intro n line lines hne; exact absurd rfl hne
  | cons w rest ih =>
    intro n line lines _ hlen
    rw [wrapLoop] at hlen
    by_cases hc : measureText charW (line ++ w ++ [' ']) > maxW ∧ 0 < n
    · rw [if_pos hc] at hlen
      have := wrapLoop_length charW maxW rest (n + 1) (w ++ [' ']) (lines ++ [line])
      rw [hlen] at this
      simp only [List.length_append, List.length_singleton] at this
      omega
    · rw [if_neg hc] at hlen
      cases rest with
      | nil =>
        rw [wrapLoop] at hlen
        rcases not_and_or.mp hc with h | h
        · left
          have : line ++ flatJoin [w] = line ++ w ++ [' '] := by
            simp [flatJoin]
          rw [this]
          exact not_lt.mp h
        · right
          exact ⟨by omega, rfl⟩
      | cons v u =>
        rcases ih (n + 1) (line ++ w ++ [' ']) lines (by simp) hlen with h | h
        · left
          have : line ++ w ++ [' '] ++ flatJoin (v :: u) = line ++ flatJoin (w :: v :: u) := by
            simp [flatJoin]
          rwa [this] at h
        · omega

/-! Claim C4: greedy word-wrap. -/

/-- C4 fails as stated: with every character 8 units wide, surface width 20
(so max line width 19), and caption "AA A", the uppercased caption is wider
than the bound and each word alone fits, yet the wrap emits the line
"AA " — the trailing space the loop appends to every accepted word pushes
its measured width to 24, above the bound. -/
theorem wrap_c4_counterexample :
    (∀ c, (0 : ℚ) ≤ charW0 c) ∧
    measureText charW0 (upperJs textC4) > 20 * (19 / 20) ∧
    (∀ w ∈ splitSpace (upperJs textC4), measureText charW0 w ≤ 20 * (19 / 20)) ∧
    ¬ (∀ l ∈ wrapText charW0 (20 * (19 / 20)) (splitSpace (upperJs textC4)),
        measureText charW0 l ≤ 20 * (19 / 20)) := by
  have hsplit : splitSpace (upperJs textC4) = [['A', 'A'], ['A']] := by decide
  have hwrap : wrapText charW0 (20 * (19 / 20)) (splitSpace (upperJs textC4)) =
      [['A', 'A', ' '], ['A', ' ']] := by
    rw [hsplit]
    unfold wrapText
    simp only [wrapLoop]
    rw [if_neg (by simp), if_pos ⟨by norm_num [measureText, charW0], Nat.zero_lt_one⟩]
    rfl
  refine ⟨fun c => by norm_num [charW0], ?_, ?_, ?_⟩
  · have : upperJs textC4 = ['A', 'A', ' ', 'A'] := by decide
    rw [this]
    norm_num [measureText, charW0]
  · rw [hsplit]
    intro w hw
    fin_cases hw <;> norm_num [measureText, charW0]
  · rw [hwrap]
    intro h
    have := h ['A', 'A', ' '] (by simp)
    norm_num [measureText, charW0] at this

/-- C4 (amended): the hypothesis "no single word alone exceeds the maximum
line width" must be strengthened to "no single word followed by its trailing
space exceeds it", because the greedy loop appends a space to every word it
places.  Under that hypothesis (and nonnegative character widths), a caption
whose uppercased form measures wider than the bound wraps into more than one
line, and every produced line measures within the bound. -/
theorem wrap_c4_amended (charW : Char → ℚ) (maxW : ℚ) (text : List Char)
    (hpos : ∀ c, 0 ≤ charW c)
    (hwide : maxW < measureText charW (upperJs text))
    (hwords : ∀ w ∈ splitSpace (upperJs text),
      measureText charW (w ++ [' ']) ≤ maxW) :
    1 < (wrapText charW maxW (splitSpace (upperJs text))).length ∧
    ∀ l ∈ wrapText charW maxW (splitSpace (upperJs text)),
      measureText charW l ≤ maxW := by
  have hne := splitSpace_ne_nil (upperJs text)
  constructor
  · by_contra hle
    have h1 : 0 + 1 ≤ (wrapText charW maxW (splitSpace (upperJs text))).length := by
      simpa using wrapLoop_length charW maxW (splitSpace (upperJs text)) 0 [] []
    have hlen : (wrapText charW maxW (splitSpace (upperJs text))).length = 0 + 1 := by
      omega
    have hsp : (0 : ℚ) ≤ charW ' ' := hpos ' '
    have hmeasure : measureText charW (flatJoin (splitSpace (upperJs text))) =
        measureText charW (upperJs text) + charW ' ' := by
      rw [flatJoin_splitSpace, measureText_append]
      simp [measureText]
    rcases wrapLoop_single charW maxW (splitSpace (upperJs text)) 0 [] [] hne hlen
      with h | ⟨_, hone⟩
    · rw [List.nil_append, hmeasure] at h
      linarith
    · obtain ⟨w0, hw0⟩ := List.length_eq_one.mp hone
      have hmem : w0 ∈ splitSpace (upperJs text) := by rw [hw0]; simp
      have := hwords w0 hmem
      have hflat : measureText charW (flatJoin [w0]) =
          measureText charW (w0 ++ [' ']) := by
        simp [flatJoin]
      rw [← hw0, hmeasure] at hflat
      linarith
  · exact wrapLoop_le charW maxW (splitSpace (upperJs text)) 0 [] []
      hwords (by simp) (Or.inr ⟨rfl, rfl, hne⟩)

/-- Witness for the amended C4 at a concrete caption "AAA BB", character
width 8, max line width 40. -/
theorem wrap_c4_amended_witness :
    1 < (wrapText charW0 40
        (splitSpace (upperJs ['A', 'A', 'A', ' ', 'B', 'B']))).length :=
  (wrap_c4_amended charW0 40 ['A', 'A', 'A', ' ', 'B', 'B']
    (fun c => by norm_num [charW0])
    (by norm_num [upperJs, measureText, charW0])
    (by
      have : splitSpace (upperJs ['A', 'A', 'A', ' ', 'B', 'B']) =
          [['A', 'A', 'A'], ['B', 'B']] := by decide
      rw [this]
      intro w hw
      fin_cases hw <;> norm_num [measureText, charW0])).1

/-! Cache and render-command lemmas (claims C6, C7). -/

/-- A JS `Map.has` test is key membership. -/
theorem cacheHasKey_iff (c : Cache) (k : String) :
    cacheHasKey c k = true ↔ k ∈ c.map (·.1) := by
  simp [cacheHasKey, cacheGet, Option.isSome_map', List.find?_isSome,
    List.mem_map, beq_iff_eq]

/-- The insertion phase of the cache effect preserves distinctness of keys:
present ids leave the map untouched and absent ids are appended once. -/
theorem updateFold_nodup (stickers : List Sticker) :
    ∀ c : Cache, (c.map (·.1)).Nodup →
      ((stickers.foldl
        (fun acc s =>
          if cacheHasKey acc s.id then acc else cacheSet acc s.id (newImage s.url))
        c).map (·.1)).Nodup := by
  induction stickers with
  | nil => intro c h; exact h
  | cons s rest ih =>
    intro c h
    rw [List.foldl_cons]
    by_cases hk : cacheHasKey c s.id = true
    · rw [if_pos hk]; exact ih c h
    · rw [if_neg hk, cacheSet, if_neg hk]
      refine ih _ ?_
      rw [List.map_append]
      rw [List.nodup_append]
      refine ⟨h, List.nodup_singleton _, ?_⟩
      intro a ha hb
      rw [List.mem_map] at hb
      obtain ⟨kv, hkv, rfl⟩ := hb
      simp only [List.mem_singleton] at hkv
      rw [hkv] at ha
      exact hk ((cacheHasKey_iff c s.id).mpr ha)

/-- Every draw command of one caption is a text command. -/
theorem drawTextOps_stickerId (charW : Char → ℚ) (w : ℚ) (text : List Char)
    (y : ℚ) (b : Bool) :
    ∀ op ∈ drawTextOps charW w text y b, op.stickerId = none := by
  intro op hop
  rw [drawTextOps] at hop
  by_cases ht : text = []
  · rw [if_pos ht] at hop; cases hop
  · rw [if_neg ht] at hop
    rw [List.mem_flatten] at hop
    obtain ⟨l, hl, hop⟩ := hop
    rw [List.mem_map] at hl
    obtain ⟨il, _, rfl⟩ := hl
    simp only [List.mem_cons, List.mem_singleton] at hop
    rcases hop with rfl | rfl | h
    · rfl
    · rfl
    · cases h

/-- Every sticker identifier painted by a render pass belongs to a sticker
of the current composition: stale cache entries for removed stickers are
never drawn. -/
theorem renderOps_sticker_sub (inp : CanvasInput) :
    ∀ op ∈ renderOps inp, ∀ i, op.stickerId = some i →
      i ∈ inp.stickers.map (·.id) := by
  intro op hop i hi
  rw [renderOps] at hop
  rcases List.mem_append.mp hop with hop | htext
  rcases List.mem_append.mp hop with hop | htext
  rcases List.mem_append.mp hop with hbg | hstick
  · rw [bgOps] at hbg
    by_cases hc : inp.bg.complete = true
    · rw [if_pos hc] at hbg
      rw [List.mem_singleton.mp hbg] at hi
      cases hi
    · rw [if_neg hc] at hbg; cases hbg
  · rw [stickerOps, List.mem_flatten] at hstick
    obtain ⟨l, hl, hopl⟩ := hstick
    rw [List.mem_map] at hl
    obtain ⟨s, hs, rfl⟩ := hl
    rw [stickerOpsFor] at hopl
    split at hopl
    · split at hopl
      · simp only [List.mem_cons, List.mem_singleton] at hopl
        rcases hopl with rfl | hopl
        · cases hi
          exact List.mem_map.mpr ⟨s, hs, rfl⟩
        · split at hopl
          · rw [List.mem_singleton.mp hopl] at hi
            cases hi
          · cases hopl
      · cases hopl
    · cases hopl
  · exact absurd hi (by rw [drawTextOps_stickerId _ _ _ _ _ op htext]; simp)
  · exact absurd hi (by rw [drawTextOps_stickerId _ _ _ _ _ op htext]; simp)

/-! Claim C6: cache invariant and eager eviction. -/

/-- C6: after the sticker-cache effect runs for a sticker list, the cache
holds at most one entry per sticker id (its key list stays duplicate-free)
and every key belongs to a sticker currently in the composition — entries of
removed stickers are evicted by the cleanup filter; moreover no render pass
ever paints a sticker id that is not in the current composition, so a
removed sticker never appears in a subsequent render even if its image load
was still in flight at removal time. -/
theorem cache_eviction_c6 (stickers : List Sticker) (c : Cache)
    (hnd : (c.map (·.1)).Nodup) :
    ((updateStickerCache stickers c).map (·.1)).Nodup ∧
    (∀ k ∈ (updateStickerCache stickers c).map (·.1), k ∈ stickers.map (·.id)) ∧
    (∀ (inp : CanvasInput) (st : CanvasState), ∀ op ∈ (drawCanvas inp st).ops,
      ∀ i, op.stickerId = some i → i ∈ inp.stickers.map (·.id)) := by
  refine ⟨?_, ?_, ?_⟩
  · rw [updateStickerCache]
    refine List.Nodup.sublist (List.Sublist.map _ (List.filter_sublist _)) ?_
    exact updateFold_nodup stickers c hnd
  · rw [updateStickerCache]
    intro k hk
    rw [List.mem_map] at hk
    obtain ⟨kv, hkv, rfl⟩ := hk
    have := (List.mem_filter.mp hkv).2
    exact List.elem_iff.mp this
  · intro inp st op hop i hi
    rw [drawCanvas_eq] at hop
    exact renderOps_sticker_sub inp op hop i hi

/-- Witness for C6: updating a nodup cache holding a stale entry for a
removed sticker leaves exactly the live sticker's key. -/
theorem cache_eviction_c6_witness :
    (([(("gone" : String), newImage ("u"))] : Cache).map (·.1)).Nodup ∧
    ((updateStickerCache [⟨"live", "u", 150, 150, 100, 100, 0⟩]
        [(("gone" : String), newImage ("u"))]).map (·.1)).Nodup := by
  refine ⟨by decide, ?_⟩
  exact (cache_eviction_c6 [⟨"live", "u", 150, 150, 100, 100, 0⟩]
    [(("gone" : String), newImage ("u"))] (by decide)).1

/-! Claim C7: missing sticker assets are skipped and retried. -/

/-- C7: in any render pass a sticker whose asset is absent from the cache,
or cached but not yet decoded, contributes no draw command for that frame
(the embedding is a total function, so nothing is thrown); once its cached
image is complete the pass paints it again; and a decode for a sticker no
longer in the composition is discarded — no pass ever paints an id outside
the current sticker list. -/
theorem sticker_skip_c7 (cache : Cache) (dragging : Option String) (s : Sticker) :
    (cacheGet cache s.id = none → stickerOpsFor cache dragging s = []) ∧
    (∀ img, cacheGet cache s.id = some img → img.complete = false →
      stickerOpsFor cache dragging s = []) ∧
    (∀ (inp : CanvasInput) (st : CanvasState) (img : HImage),
      s ∈ inp.stickers → cacheGet inp.cache s.id = some img →
      img.complete = true →
      DrawOp.stickerDraw s.id s.url s.x s.y s.width s.height s.rotation ∈
        (drawCanvas inp st).ops) ∧
    (∀ (inp : CanvasInput) (st : CanvasState), ∀ op ∈ (drawCanvas inp st).ops,
      ∀ i, op.stickerId = some i → i ∈ inp.stickers.map (·.id)) := by
  refine ⟨?_, ?_, ?_, ?_⟩
  · intro hnone
    rw [stickerOpsFor, hnone]
  · intro img hget hinc
    rw [stickerOpsFor, hget]
    simp [hinc]
  · intro inp st img hs hget hc
    rw [drawCanvas_eq]
    show _ ∈ renderOps inp
    rw [renderOps]
    refine List.mem_append.mpr (Or.inl (List.mem_append.mpr (Or.inl
      (List.mem_append.mpr (Or.inr ?_)))))
    rw [stickerOps, List.mem_flatten]
    refine ⟨stickerOpsFor inp.cache inp.draggingId s, List.mem_map.mpr ⟨s, hs, rfl⟩, ?_⟩
    rw [stickerOpsFor, hget]
    simp [hc]
  · intro inp st op hop i hi
    rw [drawCanvas_eq] at hop
    exact renderOps_sticker_sub inp op hop i hi

/-- Witness for C7: with an empty cache, a sticker contributes no draw
command. -/
theorem sticker_skip_c7_witness :
    stickerOpsFor [] none ⟨"a", "u", 150, 150, 100, 100, 0⟩ = [] :=
  (sticker_skip_c7 [] none ⟨"a", "u", 150, 150, 100, 100, 0⟩).1 rfl

/-! Decimal representation lemmas (claim C9): sticker ids are
`Date.now().toString()`, i.e. `Nat.repr` of the clock value, and distinct
clock values give distinct id strings. -/

/-- The map `digitVal` inverts `Nat.digitChar` on decimal digits. -/
theorem digitVal_digitChar : ∀ d < 10, digitVal (Nat.digitChar d) = d := by
  decide

/-- With enough fuel, the core digit loop computes `natDigits` in front of
its accumulator. -/
theorem toDigitsCore_eq_natDigits :
    ∀ (fuel n : ℕ) (ds : List Char), n < fuel →
      Nat.toDigitsCore 10 fuel n ds = natDigits n ++ ds := by
  intro fuel
  induction fuel with
  | zero => intro n ds h; omega
  | succ fuel ih =>
    intro n ds _
    rw [Nat.toDigitsCore]
    by_cases h : n / 10 = 0
    · rw [if_pos h, natDigits, dif_pos h]
      rfl
    · rw [if_neg h, natDigits, dif_neg h, ih (n / 10) _ (by omega),
        List.append_assoc]
      rfl

/-- Evaluating the digit string of `n` recovers `n`. -/
theorem charsVal_natDigits (n : ℕ) : charsVal (natDigits n) = n := by
  induction n using Nat.strong_induction_on with
  | _ n ih =>
    rw [natDigits]
    by_cases h : n / 10 = 0
    · rw [dif_pos h]
      have hm : n % 10 < 10 := Nat.mod_lt _ (by omega)
      simp only [charsVal, List.foldl_cons, List.foldl_nil]
      rw [digitVal_digitChar _ hm]
      omega
    · rw [dif_neg h]
      simp only [charsVal, List.foldl_append, List.foldl_cons, List.foldl_nil]
      have hm : n % 10 < 10 := Nat.mod_lt _ (by omega)
      rw [digitVal_digitChar _ hm]
      have := ih (n / 10) (by omega)
      simp only [charsVal] at this
      rw [this]
      omega

/-- Two distinct naturals have distinct decimal strings. -/
theorem natRepr_inj {m n : ℕ} (h : Nat.repr m = Nat.repr n) : m = n := by
  have hd : Nat.toDigits 10 m = Nat.toDigits 10 n := congrArg String.data h
  have hm : Nat.toDigits 10 m = natDigits m := by
    rw [Nat.toDigits, toDigitsCore_eq_natDigits (m + 1) m [] (by omega),
      List.append_nil]
  have hn : Nat.toDigits 10 n = natDigits n := by
    rw [Nat.toDigits, toDigitsCore_eq_natDigits (n + 1) n [] (by omega),
      List.append_nil]
  have : natDigits m = natDigits n := by rw [← hm, ← hn, hd]
  calc m = charsVal (natDigits m) := (charsVal_natDigits m).symm
    _ = charsVal (natDigits n) := by rw [this]
    _ = n := charsVal_natDigits n

/-! Sticker-id state machine lemmas (claim C9). -/

/-- A drag update leaves the id sequence unchanged. -/
theorem step_drag_ids (st : List Sticker) (did : String) (off pos : ℚ × ℚ) :
    (stepStickers st (AppOp.drag did off pos)).map (·.id) = st.map (·.id) := by
  simp only [stepStickers, handleMouseMove, Option.getD_some, List.map_map]
  refine List.map_congr_left fun s _ => ?_
  by_cases h : s.id = did <;> simp [h]

/-- Removal filters the id sequence. -/
theorem step_remove_ids (st : List Sticker) (i : String) :
    (stepStickers st (AppOp.remove i)).map (·.id) =
      (st.map (·.id)).filter (fun k => !(k == i)) := by
  simp only [stepStickers, List.filter_map]
  rfl

/-- Addition appends the clock value's decimal string to the id sequence. -/
theorem step_add_ids (st : List Sticker) (now : ℕ) (url : String) :
    (stepStickers st (AppOp.add now url)).map (·.id) =
      st.map (·.id) ++ [Nat.repr now] := by
  simp [stepStickers, freshSticker]

/-- Invariant run of the sticker state machine: if the current ids are
duplicate-free decimal strings of clock values smaller than every upcoming
addition time, and the addition times are strictly increasing, the ids stay
duplicate-free. -/
theorem runApp_nodup_aux (ops : List AppOp) :
    ∀ st : List Sticker,
      ((st.map (·.id)).Nodup) →
      (∀ k ∈ st.map (·.id), ∃ u, k = Nat.repr u ∧ ∀ t ∈ addTimes ops, u < t) →
      (addTimes ops).Pairwise (· < ·) →
      ((ops.foldl stepStickers st).map (·.id)).Nodup := by
  induction ops with
  | nil => intro st h _ _; exact h
  | cons op rest ih =>
    intro st hnd hbound hmono
    rw [List.foldl_cons]
    cases op with
    | drag did off pos =>
      refine ih _ (by rw [step_drag_ids]; exact hnd) ?_ hmono
      rw [step_drag_ids]
      exact hbound
    | remove i =>
      refine ih _ ?_ ?_ hmono
      · rw [step_remove_ids]
        exact hnd.filter _
      · rw [step_remove_ids]
        intro k hk
        exact hbound k (List.mem_of_mem_filter hk)
    | add now url =>
      have hmono' := List.pairwise_cons.mp hmono
      refine ih _ ?_ ?_ hmono'.2
      · rw [step_add_ids, List.nodup_append]
        refine ⟨hnd, List.nodup_singleton _, ?_⟩
        intro k hk hk1
        rw [List.mem_singleton.mp hk1] at hk
        obtain ⟨u, hu, hlt⟩ := hbound _ hk
        have hun : u < now := hlt now (List.mem_cons_self _ _)
        exact absurd (natRepr_inj hu.symm) (by omega)
      · rw [step_add_ids]
        intro k hk
        rcases List.mem_append.mp hk with h | h
        · obtain ⟨u, hu, hlt⟩ := hbound k h
          exact ⟨u, hu, fun t ht => hlt t (List.mem_cons_of_mem _ ht)⟩
        · rw [List.mem_singleton.mp h]
          exact ⟨now, rfl, hmono'.1⟩

/-! Claim C9: sticker identifiers. -/

/-- C9 fails as stated: the id is the millisecond clock value rendered as a
string, so two sticker generations completing at the same clock value (here
both at time 5) produce two stickers with the same id — the reachable state
after the trace `[add 5, add 5]` has duplicate identifiers. -/
theorem sticker_ids_c9_counterexample :
    ¬ ((runApp [AppOp.add 5 ("u"), AppOp.add 5 ("u")]).map (·.id)).Nodup := by
  decide

/-- C9 (amended): sticker identifiers are pairwise distinct in every
reachable state provided the clock values observed by successive sticker
additions are strictly increasing (no two additions within the same
millisecond); and identifiers are stable unconditionally — a drag update
leaves the id sequence unchanged, a removal only filters it, and an
addition only appends to it, so no operation ever rewrites an existing
sticker's id. -/
theorem sticker_ids_c9 (ops : List AppOp)
    (hmono : (addTimes ops).Pairwise (· < ·)) :
    ((runApp ops).map (·.id)).Nodup ∧
    (∀ (st : List Sticker) (did : String) (off pos : ℚ × ℚ),
      (stepStickers st (AppOp.drag did off pos)).map (·.id) = st.map (·.id)) ∧
    (∀ (st : List Sticker) (i : String),
      (stepStickers st (AppOp.remove i)).map (·.id) =
        (st.map (·.id)).filter (fun k => !(k == i))) ∧
    (∀ (st : List Sticker) (now : ℕ) (url : String),
      (stepStickers st (AppOp.add now url)).map (·.id) =
        st.map (·.id) ++ [Nat.repr now]) :=
  ⟨runApp_nodup_aux ops [] (by simp) (by simp) hmono,
    step_drag_ids, step_remove_ids, step_add_ids⟩

/-- Witness for the amended C9: a trace with strictly increasing addition
times, a removal and a drag keeps ids distinct. -/
theorem sticker_ids_c9_witness :
    ((runApp [AppOp.add 1 ("u"), AppOp.add 2 ("u"), AppOp.remove ("1"),
        AppOp.drag ("2") (0, 0) (80, 90)]).map (·.id)).Nodup :=
  (sticker_ids_c9 [AppOp.add 1 ("u"), AppOp.add 2 ("u"), AppOp.remove ("1"),
    AppOp.drag ("2") (0, 0) (80, 90)] (by decide)).1

end MemeGenius
